import Mathlib

/-!
Shallow embedding of the heapless `ArrayVec<T, N>` container from
`src/personal/001-embedded-heapless_vector/src/lib.rs`.

A `MaybeUninit<T>` storage cell is modelled as `Option T`: `some v` is a
cell holding a live value `v`, `none` is an uninitialized cell.  The Rust
`unsafe` reads (`assume_init_read`, `assume_init_ref`, `assume_init_drop`)
are modelled by reading the `Option` stored in the cell; on states
satisfying the representation invariant the cell is always `some`, mirroring
the safety argument of the source.  Fallible operations return the value
paired with the updated state (explicit state passing).
-/

universe u

variable {T : Type u} {N : ℕ}

/-- The container: a fixed array of `N` cells (here a list whose length is
`N` on every reachable state) plus the count of live cells.  Mirrors
`pub struct ArrayVec<T, const N: usize> { values: [MaybeUninit<T>; N], len: usize }`. -/
structure ArrayVec (T : Type u) (N : ℕ) where
  values : List (Option T)
  len : ℕ
  deriving Repr, DecidableEq

/-- `ArrayVec::new`: all cells uninitialized, `len = 0`. -/
def ArrayVec.new : ArrayVec T N :=
  { values := List.replicate N none, len := 0 }

/-- `ArrayVec::try_push`: if `len == N` return `Err(value)` leaving the state
untouched; otherwise write `value` into cell `len` and increment `len`. -/
def ArrayVec.try_push (av : ArrayVec T N) (value : T) : Except T Unit × ArrayVec T N :=
  if av.len = N then
    (Except.error value, av)
  else
    (Except.ok (), { av with values := av.values.set av.len (some value), len := av.len + 1 })

/-- `ArrayVec::get`: `None` when `index >= len`, otherwise the content of cell
`index` (the source does `assume_init_ref` there; on invariant-satisfying
states the cell is `some`). -/
def ArrayVec.get (av : ArrayVec T N) (index : ℕ) : Option T :=
  if av.len ≤ index then none
  else av.values.getD index none

/-- `ArrayVec::pop`: `None` when empty; otherwise decrement `len` and read the
cell at the new `len` (`assume_init_read`; the bits stay in place but the cell
is logically uninitialized again, exactly as in the source). -/
def ArrayVec.pop (av : ArrayVec T N) : Option T × ArrayVec T N :=
  if av.len = 0 then (none, av)
  else (av.values.getD (av.len - 1) none, { av with len := av.len - 1 })

/-- `ArrayVec::as_slice`: the live prefix `[0, len)` viewed as plain values
(`slice::from_raw_parts(values.as_ptr() as *const T, len)`). -/
def ArrayVec.as_slice (av : ArrayVec T N) : List T :=
  (av.values.take av.len).filterMap id

/-- `impl Drop for ArrayVec`: the values destroyed by the destructor, i.e. the
loop `for i in 0..self.len { values[i].assume_init_drop() }` in index order. -/
def ArrayVec.dropDestroys (av : ArrayVec T N) : List T :=
  (List.range av.len).filterMap (fun i => av.values.getD i none)

/-- The consuming iterator
`pub struct ArrayVecIntoIter<T, const N: usize> { values, len, index }`. -/
structure ArrayVecIntoIter (T : Type u) (N : ℕ) where
  values : List (Option T)
  len : ℕ
  index : ℕ
  deriving Repr, DecidableEq

/-- `ArrayVec::into_iter` (the `IntoIterator` impl for the owned container):
the source is wrapped in `ManuallyDrop`, so its own destructor never runs,
and `values` and `len` move verbatim into the iterator with `index = 0`. -/
def ArrayVec.into_iter (av : ArrayVec T N) : ArrayVecIntoIter T N :=
  { values := av.values, len := av.len, index := 0 }

/-- `ArrayVecIntoIter::next`: `None` when `index >= len` (state unchanged,
repeatable); otherwise read cell `index` (`assume_init_read`) and advance. -/
def ArrayVecIntoIter.next (it : ArrayVecIntoIter T N) : Option T × ArrayVecIntoIter T N :=
  if it.len ≤ it.index then (none, it)
  else (it.values.getD it.index none, { it with index := it.index + 1 })

/-- `ArrayVecIntoIter::size_hint`: `(len - index, Some(len - index))` with
saturating subtraction (Nat subtraction saturates at zero). -/
def ArrayVecIntoIter.size_hint (it : ArrayVecIntoIter T N) : ℕ × Option ℕ :=
  (it.len - it.index, some (it.len - it.index))

/-- `impl Drop for ArrayVecIntoIter`: the values destroyed by the destructor,
i.e. the loop `for i in self.index..self.len { values[i].assume_init_drop() }`. -/
def ArrayVecIntoIter.dropDestroys (it : ArrayVecIntoIter T N) : List T :=
  (List.range' it.index (it.len - it.index)).filterMap (fun i => it.values.getD i none)

/-- Run `next()` a given number of times, collecting every yielded value in
order together with the final iterator state. -/
def nextN (k : ℕ) (it : ArrayVecIntoIter T N) : List T × ArrayVecIntoIter T N :=
  match k with
  | 0 => ([], it)
  | k + 1 =>
    let r := it.next
    let rs := nextN k r.2
    (r.1.toList ++ rs.1, rs.2)

/-- Push every element of `xs` in order with `try_push`, collecting the result
of each push and the final container. -/
def pushAllResults (av : ArrayVec T N) (xs : List T) : List (Except T Unit) × ArrayVec T N :=
  match xs with
  | [] => ([], av)
  | x :: xs =>
    let r := av.try_push x
    let rs := pushAllResults r.2 xs
    (r.1 :: rs.1, rs.2)

/-- Push every element of `xs` in order, keeping only the final container. -/
def pushAll (av : ArrayVec T N) (xs : List T) : ArrayVec T N :=
  (pushAllResults av xs).2

/-- Call `pop()` a given number of times, collecting every returned value in
order together with the final container. -/
def popN (k : ℕ) (av : ArrayVec T N) : List T × ArrayVec T N :=
  match k with
  | 0 => ([], av)
  | k + 1 =>
    let r := av.pop
    let rs := popN k r.2
    (r.1.toList ++ rs.1, rs.2)

/-- Modelled from the spec: no `FromIterator` impl for `ArrayVec` exists under
`src/` (main.rs only calls `collect` and `from_iter`).  Spec section 4.4,
Build-from-sequence: an empty container is initialized and `try_push` is
invoked for each produced item in encounter order until the source is
exhausted or the container reaches capacity; items beyond capacity are
silently dropped. -/
def ArrayVec.from_iter (xs : List T) : ArrayVec T N :=
  pushAll ArrayVec.new xs

/-- Modelled from the spec: no `Extend` impl for `ArrayVec` exists under
`src/` (main.rs only calls `extend`).  Spec section 4.4, Absorb-from-sequence:
same truncation policy as Build-from-sequence but starting from the current
`len`, so total absorbed items = min(available capacity, source length). -/
def ArrayVec.extend (av : ArrayVec T N) (xs : List T) : ArrayVec T N :=
  pushAll av xs

/-- Representation invariant / refinement relation: the container `av`
represents the abstract list `l` of live values.  The backing array has
exactly `N` cells, the live count matches `l`, stays within capacity, and the
live prefix holds exactly the elements of `l` (all cells below `len`
initialized: invariant I1; `len ≤ N`: invariant I2). -/
def ArrayVec.models (av : ArrayVec T N) (l : List T) : Prop :=
  av.values.length = N ∧ av.len = l.length ∧ l.length ≤ N ∧
    av.values.take av.len = l.map some

instance (av : ArrayVec T N) (l : List T) [DecidableEq T] :
    Decidable (av.models l) := by
  unfold ArrayVec.models
  infer_instance

/-- Refinement relation for the consuming iterator: `done` are the values
already yielded (cells `[0, index)`), `pending` the values still owned by the
iterator (cells `[index, len)`). -/
def ArrayVecIntoIter.imodels (it : ArrayVecIntoIter T N) (done pending : List T) : Prop :=
  it.values.length = N ∧ it.len ≤ N ∧ it.index = done.length ∧
    it.len = done.length + pending.length ∧
    (it.values.take it.len).drop it.index = pending.map some

instance (it : ArrayVecIntoIter T N) (done pending : List T) [DecidableEq T] :
    Decidable (it.imodels done pending) := by
  unfold ArrayVecIntoIter.imodels
  infer_instance

/-! ### Refinement lemmas for the storage core -/

theorem models_new : (ArrayVec.new : ArrayVec T N).models [] := by
  simp [ArrayVec.new, ArrayVec.models]

theorem try_push_full {av : ArrayVec T N} {l : List T} (h : av.models l)
    (hfull : l.length = N) (v : T) : av.try_push v = (Except.error v, av) := by
  obtain ⟨h1, h2, h3, h4⟩ := h
  simp [ArrayVec.try_push, h2, hfull]

theorem try_push_ok {av : ArrayVec T N} {l : List T} (h : av.models l)
    (hlt : l.length < N) (v : T) :
    (av.try_push v).1 = Except.ok () ∧ (av.try_push v).2.models (l ++ [v]) := by
  obtain ⟨h1, h2, h3, h4⟩ := h
  have hne : av.len ≠ N := by omega
  have hvlen : av.len < av.values.length := by omega
  have hset : av.values.set av.len (some v)
      = av.values.take av.len ++ some v :: av.values.drop (av.len + 1) :=
    List.set_eq_take_cons_drop (some v) hvlen
  have htakelen : (av.values.take av.len).length = av.len :=
    List.length_take_of_le (le_of_lt hvlen)
  have hpush : av.try_push v
      = (Except.ok (), { av with values := av.values.set av.len (some v), len := av.len + 1 }) := by
    unfold ArrayVec.try_push
    rw [if_neg hne]
  rw [hpush]
  refine ⟨rfl, ?_, ?_, ?_, ?_⟩
  · simpa using h1
  · simpa using h2
  · simpa using hlt
  · show (av.values.set av.len (some v)).take (av.len + 1) = (l ++ [v]).map some
    rw [hset, List.take_append_eq_append_take, htakelen]
    have hmin : min (av.len + 1) av.len = av.len := by omega
    have hsub : av.len + 1 - av.len = 1 := by omega
    rw [List.take_take, hmin, h4, hsub]
    simp

theorem get_models {av : ArrayVec T N} {l : List T} (h : av.models l)
    (i : ℕ) : av.get i = l[i]? := by
  obtain ⟨h1, h2, h3, h4⟩ := h
  unfold ArrayVec.get
  by_cases hi : av.len ≤ i
  · rw [if_pos hi, eq_comm, List.getElem?_eq_none_iff]
    omega
  · rw [if_neg hi]
    have : av.values[i]? = (av.values.take av.len)[i]? := by
      rw [List.getElem?_take, if_pos (by omega)]
    rw [List.getD_eq_getElem?_getD, this, h4, List.getElem?_map]
    have : i < l.length := by omega
    simp [List.getElem?_eq_getElem this]

theorem pop_nil {av : ArrayVec T N} (h : av.models ([] : List T)) :
    av.pop = (none, av) := by
  obtain ⟨h1, h2, h3, h4⟩ := h
  simp [ArrayVec.pop, h2]

theorem pop_concat {av : ArrayVec T N} {l : List T} {v : T}
    (h : av.models (l ++ [v])) :
    (av.pop).1 = some v ∧ (av.pop).2.models l := by
  obtain ⟨h1, h2, h3, h4⟩ := h
  have hlen : av.len = l.length + 1 := by simpa using h2
  have hne : av.len ≠ 0 := by omega
  have hvl : av.len ≤ av.values.length := by simp at h3; omega
  have hget : av.values.getD (av.len - 1) none = some v := by
    have h5 : (av.values.take av.len)[l.length]? = some (some v) := by
      rw [h4]
      simp
    rw [List.getElem?_take, if_pos (by omega)] at h5
    rw [List.getD_eq_getElem?_getD, hlen]
    simp [h5]
  have hpop : av.pop
      = (av.values.getD (av.len - 1) none, { av with len := av.len - 1 }) := by
    unfold ArrayVec.pop
    rw [if_neg hne]
  rw [hpop]
  refine ⟨hget, h1, by simp only [List.length_append, List.length_cons] at h2 ⊢; omega, ?_, ?_⟩
  · simp at h3
    omega
  · show av.values.take (av.len - 1) = l.map some
    have hrw : av.values.take (av.len - 1) = (av.values.take av.len).take l.length := by
      rw [List.take_take]
      congr 1
      omega
    rw [hrw, h4, List.map_append, List.take_append_eq_append_take]
    simp

/-! ### Refinement lemmas for the consuming iterator -/

theorem getD_of_slice {vs : List (Option T)} {len idx : ℕ} {p : T} {ps : List T}
    (_hlen : len ≤ vs.length) (hidx : idx + (p :: ps).length = len)
    (hs : (vs.take len).drop idx = (p :: ps).map some) :
    vs.getD idx none = some p := by
  have hidxlt : idx < len := by simp at hidx; omega
  have h0 : ((vs.take len).drop idx)[0]? = some (some p) := by
    rw [hs]
    simp
  rw [List.getElem?_drop] at h0
  simp only [Nat.add_zero] at h0
  rw [List.getElem?_take, if_pos hidxlt] at h0
  rw [List.getD_eq_getElem?_getD, h0]
  rfl

theorem slice_tail {vs : List (Option T)} {len idx : ℕ} {p : T} {ps : List T}
    (hs : (vs.take len).drop idx = (p :: ps).map some) :
    (vs.take len).drop (idx + 1) = ps.map some := by
  have : (vs.take len).drop (idx + 1) = ((vs.take len).drop idx).drop 1 := by
    rw [List.drop_drop]
  rw [this, hs]
  simp

theorem into_iter_imodels {av : ArrayVec T N} {l : List T} (h : av.models l) :
    av.into_iter.imodels [] l := by
  obtain ⟨h1, h2, h3, h4⟩ := h
  unfold ArrayVec.into_iter
  exact ⟨h1, by show av.len ≤ N; omega, by simp, by simpa using h2, by simpa using h4⟩

theorem next_exhausted {it : ArrayVecIntoIter T N} {done : List T}
    (h : it.imodels done []) : it.next = (none, it) := by
  obtain ⟨h1, h2, h3, h4, h5⟩ := h
  unfold ArrayVecIntoIter.next
  rw [if_pos (by simp at h4; omega)]

theorem next_yields {it : ArrayVecIntoIter T N} {done : List T} {p : T} {ps : List T}
    (h : it.imodels done (p :: ps)) :
    it.next = (some p, { it with index := it.index + 1 }) ∧
      ({ it with index := it.index + 1 } : ArrayVecIntoIter T N).imodels (done ++ [p]) ps := by
  obtain ⟨h1, h2, h3, h4, h5⟩ := h
  have hlt : ¬ it.len ≤ it.index := by simp at h4; omega
  have hlenvs : it.len ≤ it.values.length := by omega
  have hidx : it.index + (p :: ps).length = it.len := by simp at h4 ⊢; omega
  have hget : it.values.getD it.index none = some p := getD_of_slice hlenvs hidx h5
  refine ⟨?_, h1, h2, by simpa using h3, by simp at h4 ⊢; omega, ?_⟩
  · unfold ArrayVecIntoIter.next
    rw [if_neg hlt, hget]
  · show (it.values.take it.len).drop (it.index + 1) = ps.map some
    exact slice_tail h5

theorem nextN_imodels {it : ArrayVecIntoIter T N} {done pending : List T}
    (h : it.imodels done pending) (k : ℕ) :
    (nextN k it).1 = pending.take k ∧
      (nextN k it).2.imodels (done ++ pending.take k) (pending.drop k) := by
  induction k generalizing it done pending with
  | zero => exact ⟨rfl, by simpa using h⟩
  | succ k ih =>
    cases pending with
    | nil =>
      have hnx := next_exhausted h
      have := ih h
      simp only [nextN, hnx]
      simpa using this
    | cons p ps =>
      obtain ⟨hnx, hmod⟩ := next_yields h
      have := ih hmod
      simp only [nextN, hnx]
      constructor
      · simpa using this.1
      · have h2 := this.2
        simp only [List.take_succ_cons, List.drop_succ_cons]
        simpa [List.append_assoc] using h2

theorem slice_filterMap {vs : List (Option T)} :
    ∀ (ps : List T) (idx len : ℕ), len ≤ vs.length → idx + ps.length = len →
      (vs.take len).drop idx = ps.map some →
      (List.range' idx ps.length).filterMap (fun i => vs.getD i none) = ps := by
  intro ps
  induction ps with
  | nil =>
    intro idx len _ _ _
    simp
  | cons p ps ih =>
    intro idx len hlen hidx hs
    have hget : vs.getD idx none = some p := getD_of_slice hlen hidx hs
    have hrec := ih (idx + 1) len hlen (by simp at hidx ⊢; omega) (slice_tail hs)
    simp only [List.length_cons, List.range'_succ, List.filterMap_cons, hget, hrec]

theorem dropDestroys_imodels {it : ArrayVecIntoIter T N} {done pending : List T}
    (h : it.imodels done pending) : it.dropDestroys = pending := by
  obtain ⟨h1, h2, h3, h4, h5⟩ := h
  unfold ArrayVecIntoIter.dropDestroys
  have hcount : it.len - it.index = pending.length := by omega
  rw [hcount]
  exact slice_filterMap pending it.index it.len (by omega) (by omega) h5

theorem size_hint_imodels {it : ArrayVecIntoIter T N} {done pending : List T}
    (h : it.imodels done pending) :
    it.size_hint = (pending.length, some pending.length) := by
  obtain ⟨h1, h2, h3, h4, h5⟩ := h
  unfold ArrayVecIntoIter.size_hint
  have : it.len - it.index = pending.length := by omega
  rw [this]

/-! ### Bulk push and repeated pop -/

theorem pushAllResults_models {av : ArrayVec T N} {l : List T} (h : av.models l)
    (xs : List T) :
    (pushAllResults av xs).1
      = (xs.take (N - l.length)).map (fun _ => Except.ok ())
        ++ (xs.drop (N - l.length)).map (fun x => Except.error x) ∧
    (pushAllResults av xs).2.models (l ++ xs.take (N - l.length)) := by
  induction xs generalizing av l with
  | nil => exact ⟨by simp [pushAllResults], by simpa [pushAllResults] using h⟩
  | cons x xs ih =>
    by_cases hfull : l.length = N
    · have hz : N - l.length = 0 := by omega
      have hpush := try_push_full h hfull x
      obtain ⟨ihr, ihm⟩ := ih h
      rw [hz] at ihr ihm ⊢
      simp only [pushAllResults, hpush]
      refine ⟨?_, by simpa using ihm⟩
      simp only [List.take_zero, List.drop_zero, List.map_nil, List.nil_append,
        List.map_cons] at ihr ⊢
      rw [ihr]
    · have hlt : l.length < N := lt_of_le_of_ne h.2.2.1 hfull
      obtain ⟨hr, hmod⟩ := try_push_ok h hlt x
      obtain ⟨ihr, ihm⟩ := ih hmod
      have hm : N - l.length = (N - (l.length + 1)) + 1 := by omega
      have hlen' : (l ++ [x]).length = l.length + 1 := by simp
      rw [hlen'] at ihr ihm
      constructor
      · simp only [pushAllResults, hr, hm, List.take_succ_cons, List.drop_succ_cons,
          List.map_cons, List.cons_append]
        rw [ihr]
      · simp only [pushAllResults, hm, List.take_succ_cons]
        have : l ++ x :: xs.take (N - (l.length + 1)) = (l ++ [x]) ++ xs.take (N - (l.length + 1)) := by
          simp
        rw [this]
        exact ihm

theorem pushAll_models {av : ArrayVec T N} {l : List T} (h : av.models l)
    (xs : List T) : (pushAll av xs).models (l ++ xs.take (N - l.length)) :=
  (pushAllResults_models h xs).2

theorem popN_models {av : ArrayVec T N} {l : List T} (h : av.models l) :
    (popN l.length av).1 = l.reverse ∧ (popN l.length av).2.models ([] : List T) := by
  induction l using List.reverseRecOn generalizing av with
  | nil => exact ⟨by simp [popN], by simpa using h⟩
  | append_singleton ys y ih =>
    obtain ⟨hv, hm⟩ := pop_concat h
    obtain ⟨ihr, ihm⟩ := ih hm
    have hlen : (ys ++ [y]).length = ys.length + 1 := by simp
    rw [hlen]
    constructor
    · simp only [popN, hv, Option.toList_some, List.singleton_append, ihr]
      simp
    · simpa [popN] using ihm

/-! ### Reachable container states -/

/-- Container states reachable through the public API: `new`, `try_push`,
`pop`, plus in-place overwriting of a live cell through the exclusive views
(`as_mut_slice` / `iter_mut` / `&mut` iteration), which can replace a live
element but never changes `len`.  The read-only operations (`get`, `len`,
`as_slice`, shared iteration) do not change the state. -/
inductive Reachable : ArrayVec T N → Prop
  | new : Reachable ArrayVec.new
  | push (av : ArrayVec T N) (v : T) : Reachable av → Reachable (av.try_push v).2
  | pop (av : ArrayVec T N) : Reachable av → Reachable av.pop.2
  | mutate (av : ArrayVec T N) (i : ℕ) (v : T) : i < av.len → Reachable av →
      Reachable { av with values := av.values.set i (some v) }

theorem nextN_exhausted {it : ArrayVecIntoIter T N} (h : it.len ≤ it.index)
    (j : ℕ) : nextN j it = ([], it) := by
  induction j with
  | zero => rfl
  | succ j ih =>
    have hnx : it.next = (none, it) := by
      unfold ArrayVecIntoIter.next
      rw [if_pos h]
    simp only [nextN, hnx, ih]
    simp

theorem nextN_add (a b : ℕ) (it : ArrayVecIntoIter T N) :
    nextN (a + b) it
      = ((nextN a it).1 ++ (nextN b (nextN a it).2).1, (nextN b (nextN a it).2).2) := by
  induction a generalizing it with
  | zero => simp [nextN]
  | succ a ih =>
    have : a + 1 + b = (a + b) + 1 := by omega
    rw [this]
    simp only [nextN, ih (it.next).2]
    simp [List.append_assoc]

/-! ### Claim theorems -/

/-- Claim C1: consuming a container holding live elements `l` via `into_iter`
and stopping after any number `k` of `next()` calls (including zero and
including calls past exhaustion) releases each live element exactly once:
the yielded values are exactly the first `min k |l|` elements (owned by their
recipients, not destroyed again), the iterator destructor destroys exactly
the cells `[cursor, len)` — the never-yielded remainder — and together the
yields and the destroys account for every live element exactly once.  The
consumed source runs no destructor of its own: `into_iter` wraps it in
`ManuallyDrop`, modelled here by `ArrayVec.into_iter` taking the cells over
verbatim with no invocation of `ArrayVec.dropDestroys`. -/
theorem c1_exactly_once_release {av : ArrayVec T N} {l : List T}
    (h : av.models l) (k : ℕ) :
    (nextN k av.into_iter).1 = l.take k ∧
    (nextN k av.into_iter).2.dropDestroys = l.drop k ∧
    (nextN k av.into_iter).1 ++ (nextN k av.into_iter).2.dropDestroys = l := by
  obtain ⟨hy, hm⟩ := nextN_imodels (into_iter_imodels h) k
  have hd := dropDestroys_imodels hm
  exact ⟨hy, hd, by rw [hy, hd, List.take_append_drop]⟩

theorem c1_exactly_once_release_witness :
    (nextN 2 (ArrayVec.mk [some 1, some 2, some 3] 3 : ArrayVec ℕ 3).into_iter).1 = [1, 2] ∧
    (nextN 2 (ArrayVec.mk [some 1, some 2, some 3] 3 : ArrayVec ℕ 3).into_iter).2.dropDestroys
      = [3] ∧
    (nextN 2 (ArrayVec.mk [some 1, some 2, some 3] 3 : ArrayVec ℕ 3).into_iter).1
      ++ (nextN 2 (ArrayVec.mk [some 1, some 2, some 3] 3 : ArrayVec ℕ 3).into_iter).2.dropDestroys
      = [1, 2, 3] :=
  @c1_exactly_once_release ℕ 3 (ArrayVec.mk [some 1, some 2, some 3] 3) [1, 2, 3]
    (by decide) 2

/-- Claim C2: on a full container (`len == N`) `try_push` fails, handing the
pushed value back unchanged and leaving the container state completely
untouched; on a non-full container it writes the value into cell `len`,
increments `len` by one, and returns success. -/
theorem c2_try_push_full_rejects_nonfull_appends {av : ArrayVec T N} {l : List T}
    (h : av.models l) (v : T) :
    (av.len = N → av.try_push v = (Except.error v, av)) ∧
    (av.len < N →
      (av.try_push v).1 = Except.ok () ∧
      (av.try_push v).2.len = av.len + 1 ∧
      (av.try_push v).2.get av.len = some v ∧
      (av.try_push v).2.models (l ++ [v])) := by
  have hlen := h.2.1
  constructor
  · intro hfull
    exact try_push_full h (by omega) v
  · intro hlt
    obtain ⟨hr, hm⟩ := try_push_ok h (by omega) v
    refine ⟨hr, ?_, ?_, hm⟩
    · have := hm.2.1
      simp at this
      omega
    · rw [get_models hm, hlen]
      simp
theorem c2_try_push_witness :
    ((ArrayVec.mk [some 7, some 8] 2 : ArrayVec ℕ 2).len = 2 →
      (ArrayVec.mk [some 7, some 8] 2 : ArrayVec ℕ 2).try_push 9
        = (Except.error 9, ArrayVec.mk [some 7, some 8] 2)) ∧
    ((ArrayVec.mk [some 7, some 8] 2 : ArrayVec ℕ 2).len < 2 →
      ((ArrayVec.mk [some 7, some 8] 2 : ArrayVec ℕ 2).try_push 9).1 = Except.ok () ∧
      ((ArrayVec.mk [some 7, some 8] 2 : ArrayVec ℕ 2).try_push 9).2.len
        = (ArrayVec.mk [some 7, some 8] 2 : ArrayVec ℕ 2).len + 1 ∧
      ((ArrayVec.mk [some 7, some 8] 2 : ArrayVec ℕ 2).try_push 9).2.get
          (ArrayVec.mk [some 7, some 8] 2 : ArrayVec ℕ 2).len = some 9 ∧
      ((ArrayVec.mk [some 7, some 8] 2 : ArrayVec ℕ 2).try_push 9).2.models [7, 8, 9]) :=
  @c2_try_push_full_rejects_nonfull_appends ℕ 2 (ArrayVec.mk [some 7, some 8] 2) [7, 8]
    (by decide) 9

/-- Claim C3: pushing a sequence of at most `N` values into a new container
succeeds for every value, `len` equals the number of successful pushes, and
`get i` returns the value supplied by the i-th push for every `i < len`. -/
theorem c3_pushes_then_len_and_get {xs : List T} (h : xs.length ≤ N) :
    (pushAllResults (ArrayVec.new : ArrayVec T N) xs).1
      = xs.map (fun _ => Except.ok ()) ∧
    (pushAll (ArrayVec.new : ArrayVec T N) xs).len = xs.length ∧
    ∀ i, i < xs.length → (pushAll (ArrayVec.new : ArrayVec T N) xs).get i = xs[i]? := by
  obtain ⟨hr, hm⟩ := pushAllResults_models (@models_new T N) xs
  have h0 : N - ([] : List T).length = N := by simp
  rw [h0, List.take_of_length_le h] at hr hm
  rw [List.drop_eq_nil_of_le h] at hr
  simp only [List.nil_append] at hm
  refine ⟨by simpa using hr, ?_, ?_⟩
  · simpa [pushAll] using hm.2.1
  · intro i _
    have := get_models hm i
    simpa [pushAll] using this

theorem c3_pushes_witness :
    ([10, 20, 30].length ≤ 4) ∧
    ((pushAllResults (ArrayVec.new : ArrayVec ℕ 4) [10, 20, 30]).1
        = [10, 20, 30].map (fun _ => Except.ok ()) ∧
      (pushAll (ArrayVec.new : ArrayVec ℕ 4) [10, 20, 30]).len = [10, 20, 30].length ∧
      ∀ i, i < [10, 20, 30].length →
        (pushAll (ArrayVec.new : ArrayVec ℕ 4) [10, 20, 30]).get i = [10, 20, 30][i]?) :=
  ⟨by decide, @c3_pushes_then_len_and_get ℕ 4 [10, 20, 30] (by decide)⟩

/-- Claim C4: pushing `k ≤ N` values into a new container and popping `k`
times returns the values in reverse push order (LIFO) and leaves the
container empty (`len = 0`). -/
theorem c4_push_then_pop_lifo {xs : List T} (h : xs.length ≤ N) :
    (popN xs.length (pushAll (ArrayVec.new : ArrayVec T N) xs)).1 = xs.reverse ∧
    (popN xs.length (pushAll (ArrayVec.new : ArrayVec T N) xs)).2.len = 0 := by
  have hm : (pushAll (ArrayVec.new : ArrayVec T N) xs).models xs := by
    have := pushAll_models (@models_new T N) xs
    simpa [List.take_of_length_le (by simpa using h)] using this
  have hx := popN_models hm
  exact ⟨hx.1, by simpa using hx.2.2.1⟩

theorem c4_push_then_pop_witness :
    ([4, 5, 6].length ≤ 3) ∧
    ((popN [4, 5, 6].length (pushAll (ArrayVec.new : ArrayVec ℕ 3) [4, 5, 6])).1
        = [4, 5, 6].reverse ∧
      (popN [4, 5, 6].length (pushAll (ArrayVec.new : ArrayVec ℕ 3) [4, 5, 6])).2.len = 0) :=
  ⟨by decide, @c4_push_then_pop_lifo ℕ 3 [4, 5, 6] (by decide)⟩

/-- Claim C5: consuming a container holding `[v0 .. v_km1]` yields exactly
those values in order: after `k` calls the yielded values are the first `k`
elements (so no call ever yields a value past `len`), after `|l|` calls the
whole list has been yielded, and every further call returns `None` again
without changing the iterator state (`next` is repeatable after
exhaustion). -/
theorem c5_yields_in_order_then_exhausted {av : ArrayVec T N} {l : List T}
    (h : av.models l) :
    (∀ k, (nextN k av.into_iter).1 = l.take k) ∧
    (nextN l.length av.into_iter).1 = l ∧
    (∀ j, nextN (l.length + j) av.into_iter = nextN l.length av.into_iter) := by
  have hbase := fun k => nextN_imodels (into_iter_imodels h) k
  refine ⟨fun k => (hbase k).1, by simpa using (hbase l.length).1, ?_⟩
  intro j
  obtain ⟨-, -, h3, h4, -⟩ := (hbase l.length).2
  have hexh : (nextN l.length av.into_iter).2.len
      ≤ (nextN l.length av.into_iter).2.index := by
    simp at h3 h4
    omega
  rw [nextN_add, nextN_exhausted hexh j]
  simp

theorem c5_yields_witness :
    (∀ k, (nextN k (ArrayVec.mk [some 4, some 5] 2 : ArrayVec ℕ 2).into_iter).1
      = [4, 5].take k) ∧
    (nextN ([4, 5] : List ℕ).length (ArrayVec.mk [some 4, some 5] 2 : ArrayVec ℕ 2).into_iter).1
      = [4, 5] ∧
    (∀ j, nextN (([4, 5] : List ℕ).length + j)
        (ArrayVec.mk [some 4, some 5] 2 : ArrayVec ℕ 2).into_iter
      = nextN ([4, 5] : List ℕ).length
        (ArrayVec.mk [some 4, some 5] 2 : ArrayVec ℕ 2).into_iter) :=
  @c5_yields_in_order_then_exhausted ℕ 2 (ArrayVec.mk [some 4, some 5] 2) [4, 5] (by decide)

/-- Claim C6 (spec-modelled `FromIterator`): building a container from a
source sequence pushes each item in encounter order until the source runs out
or capacity `N` is reached; the result holds exactly the first
`min N |xs|` items, so its `len` is `min N |xs|` and surplus items are
silently dropped. -/
theorem c6_from_iter_truncates_at_capacity (xs : List T) :
    (ArrayVec.from_iter xs : ArrayVec T N).models (xs.take N) ∧
    (ArrayVec.from_iter xs : ArrayVec T N).len = min N xs.length := by
  have h := pushAll_models (@models_new T N) xs
  have h0 : N - ([] : List T).length = N := by simp
  rw [h0] at h
  simp only [List.nil_append] at h
  refine ⟨h, ?_⟩
  show (pushAll (ArrayVec.new : ArrayVec T N) xs).len = min N xs.length
  have hlen := h.2.1
  simp only [List.length_take] at hlen
  exact hlen

/-- Claim C7 (spec-modelled `Extend`): absorbing a source sequence into an
existing container appends items in encounter order starting at the current
`len`, absorbing exactly `min (N - len) |xs|` items and silently discarding
the surplus; the original elements stay first and unchanged. -/
theorem c7_extend_appends_and_truncates {av : ArrayVec T N} {l : List T}
    (h : av.models l) (xs : List T) :
    (av.extend xs).models (l ++ xs.take (N - l.length)) ∧
    (av.extend xs).len = min N (l.length + xs.length) := by
  have hm := pushAll_models h xs
  refine ⟨hm, ?_⟩
  show (pushAll av xs).len = min N (l.length + xs.length)
  have hlen := hm.2.1
  have hlN : l.length ≤ N := h.2.2.1
  simp only [List.length_append, List.length_take] at hlen
  omega

theorem c7_extend_witness :
    ((ArrayVec.mk [some 1, some 2, none, none, none] 2 : ArrayVec ℕ 5).extend
        [3, 4, 5, 6, 7, 8, 9, 10, 11, 12]).models
      ([1, 2] ++ [3, 4, 5, 6, 7, 8, 9, 10, 11, 12].take (5 - [1, 2].length)) ∧
    ((ArrayVec.mk [some 1, some 2, none, none, none] 2 : ArrayVec ℕ 5).extend
        [3, 4, 5, 6, 7, 8, 9, 10, 11, 12]).len
      = min 5 (([1, 2] : List ℕ).length + ([3, 4, 5, 6, 7, 8, 9, 10, 11, 12] : List ℕ).length) :=
  @c7_extend_appends_and_truncates ℕ 5 (ArrayVec.mk [some 1, some 2, none, none, none] 2)
    [1, 2] (by decide) [3, 4, 5, 6, 7, 8, 9, 10, 11, 12]

/-- Claim C8: read operations signal absence instead of faulting: `pop` on an
empty container returns `None` and hands back the container unchanged (so
`len` stays 0), and `get index` returns `None` for every `index >= len`
(even when `index < N`); the bounds check is against `len`, so no slot beyond
`len` is read, and neither call changes the container. -/
theorem c8_reads_signal_absence (av : ArrayVec T N) :
    (av.len = 0 → av.pop = (none, av)) ∧
    (∀ i, av.len ≤ i → av.get i = none) := by
  constructor
  · intro hz
    unfold ArrayVec.pop
    rw [if_pos hz]
  · intro i hi
    unfold ArrayVec.get
    rw [if_pos hi]

theorem c8_reads_witness :
    (ArrayVec.new : ArrayVec ℕ 2).pop = (none, ArrayVec.new) ∧
    (ArrayVec.new : ArrayVec ℕ 2).get 1 = none :=
  ⟨(c8_reads_signal_absence ArrayVec.new).1 rfl,
    (c8_reads_signal_absence ArrayVec.new).2 1 (by decide)⟩

/-- Claim C9 (invariant I2): every container state reachable through the
public API (`new`, `try_push`, `pop`, exclusive in-place mutation; the
read-only operations do not change the state) has `len ≤ N`. -/
theorem c9_len_never_exceeds_capacity {av : ArrayVec T N} (h : Reachable av) :
    av.len ≤ N := by
  induction h with
  | new => exact Nat.zero_le N
  | push av v _ ih =>
    show (av.try_push v).2.len ≤ N
    unfold ArrayVec.try_push
    by_cases hfull : av.len = N
    · rw [if_pos hfull]
      exact ih
    · rw [if_neg hfull]
      show av.len + 1 ≤ N
      omega
  | pop av _ ih =>
    show av.pop.2.len ≤ N
    unfold ArrayVec.pop
    by_cases hz : av.len = 0
    · rw [if_pos hz]
      exact ih
    · rw [if_neg hz]
      show av.len - 1 ≤ N
      omega
  | mutate av i v _ _ ih => exact ih

theorem c9_len_witness : ((ArrayVec.new : ArrayVec ℕ 2).try_push 3).2.len ≤ 2 :=
  c9_len_never_exceeds_capacity (Reachable.push ArrayVec.new 3 Reachable.new)

/-- Claim C10: on every reachable owning-iterator state (reached by `k`
`next()` calls from a freshly consumed container holding `l`), `size_hint`
returns the exact number of remaining items as both the lower and the upper
bound; definitionally it is `(len - index, Some(len - index))` with Nat
(saturating) subtraction, so it is total even if `index` exceeded `len`. -/
theorem c10_size_hint_exact {av : ArrayVec T N} {l : List T}
    (h : av.models l) (k : ℕ) :
    (nextN k av.into_iter).2.size_hint = ((l.drop k).length, some (l.drop k).length) ∧
    (nextN k av.into_iter).2.size_hint
      = ((nextN k av.into_iter).2.len - (nextN k av.into_iter).2.index,
          some ((nextN k av.into_iter).2.len - (nextN k av.into_iter).2.index)) :=
  ⟨size_hint_imodels (nextN_imodels (into_iter_imodels h) k).2, rfl⟩

theorem c10_size_hint_witness :
    (nextN 1 (ArrayVec.mk [some 1, some 2, none] 2 : ArrayVec ℕ 3).into_iter).2.size_hint
      = ((([1, 2] : List ℕ).drop 1).length, some (([1, 2] : List ℕ).drop 1).length) ∧
    (nextN 1 (ArrayVec.mk [some 1, some 2, none] 2 : ArrayVec ℕ 3).into_iter).2.size_hint
      = ((nextN 1 (ArrayVec.mk [some 1, some 2, none] 2 : ArrayVec ℕ 3).into_iter).2.len
            - (nextN 1 (ArrayVec.mk [some 1, some 2, none] 2 : ArrayVec ℕ 3).into_iter).2.index,
          some ((nextN 1 (ArrayVec.mk [some 1, some 2, none] 2 : ArrayVec ℕ 3).into_iter).2.len
            - (nextN 1 (ArrayVec.mk [some 1, some 2, none] 2 : ArrayVec ℕ 3).into_iter).2.index)) :=
  @c10_size_hint_exact ℕ 3 (ArrayVec.mk [some 1, some 2, none] 2) [1, 2] (by decide) 1
